import Mathlib

/-!
Verification of the surebet-tool frontend arbitrage logic.

The definitions below are a shallow embedding of the TypeScript code in
`apps/frontend/app/dashboard/columns.tsx` and the bet-detail page:
the per-label best-odds grouping (`bestByOutcomeName`), the stake
calculator (`CalculateStakesForm`), the profit-range table filter, and
the surebet/event fetch fallback.  JavaScript numbers are modelled by
exact rationals; a JavaScript object used as a string-keyed record is
modelled by an insertion-ordered association list.
-/

namespace SurebetTool

/-- An outcome row, matching the `outcomes` element type of `SurebetEvent`
in `columns.tsx` (fields `id, event_id, bookmaker, name, odds,
deep_link_url`). -/
structure Outcome where
  id : Nat
  event_id : Nat
  bookmaker : String
  name : String
  odds : ℚ
  deep_link_url : String
deriving Repr, DecidableEq, Inhabited

/-- Indexing a string-keyed JavaScript record (`acc[key]`): the value at
the first entry whose key matches, if any. -/
def recordGet (k : String) : List (String × Outcome) → Option Outcome
  | [] => none
  | p :: rest => if p.1 = k then some p.2 else recordGet k rest

/-- One step of the reducer in `columns.tsx` lines 107-117 / 200-210 (and
`bestByName` on the bet-detail page): skip outcomes whose `name` is
falsy (empty), insert a new key at the end of the record, and overwrite
the stored outcome in place when the current one has strictly greater
odds. -/
def insertBest (acc : List (String × Outcome)) (curr : Outcome) : List (String × Outcome) :=
  if curr.name = "" then acc
  else
    match recordGet curr.name acc with
    | none => acc ++ [(curr.name, curr)]
    | some prev =>
        if prev.odds < curr.odds then
          acc.map fun p => if p.1 = curr.name then (curr.name, curr) else p
        else acc

/-- `outcomes.reduce(..., \x7b\x7d)` from `columns.tsx`: the record mapping
each non-empty outcome name to the best-odds outcome carrying it. -/
def bestByOutcomeName (outcomes : List Outcome) : List (String × Outcome) :=
  outcomes.foldl insertBest []

/-- `Object.values(bestByOutcomeName)`. -/
def bestOutcomes (outcomes : List Outcome) : List Outcome :=
  (bestByOutcomeName outcomes).map Prod.snd

/-- `outcomes.reduce((acc, o) => acc + 1 / o.odds, 0)`, the `sumInverse`
constant of `CalculateStakesForm`. -/
def sumInverse (outcomes : List Outcome) : ℚ :=
  outcomes.foldl (fun acc o => acc + 1 / o.odds) 0

/-- One allocation row of the `results` list in `CalculateStakesForm`:
the spread outcome together with its stake and potential return. -/
structure Alloc where
  outcome : Outcome
  stake : ℚ
  ret : ℚ
deriving Repr, DecidableEq

/-- The `results` constant of `CalculateStakesForm` (`columns.tsx` lines
355-364): `share = 1 / o.odds / sumInverse`, `stake = totalStake * share`,
`return = stake * o.odds`. -/
def stakeResults (outcomes : List Outcome) (totalStake : ℚ) : List Alloc :=
  outcomes.map fun o =>
    let share := 1 / o.odds / sumInverse outcomes
    let stakeForOutcome := totalStake * share
    { outcome := o, stake := stakeForOutcome, ret := stakeForOutcome * o.odds }

/-- What `CalculateStakesForm` renders: the empty-outcomes message, the
invalid-odds message, or the allocation list with the expected return and
profit head-line figures. -/
inductive StakeFormView where
  | noOutcomes
  | invalidOdds
  | results (rs : List Alloc) (guaranteedReturn profit : ℚ)
deriving Repr, DecidableEq

/-- `CalculateStakesForm` (`columns.tsx` lines 336-416): guard on an empty
outcome list, then on `sumInverse <= 0`, otherwise render the allocation
results, `guaranteedReturn = stake / sumInverse` and
`profit = guaranteedReturn - stake`. -/
def CalculateStakesForm (outcomes : List Outcome) (stake : ℚ) : StakeFormView :=
  let s := sumInverse outcomes
  if outcomes.length = 0 then .noOutcomes
  else if s ≤ 0 then .invalidOdds
  else .results (stakeResults outcomes stake) (stake / s) (stake / s - stake)

/-- The `filterFn` of the `profit_percentage` column (`columns.tsx` lines
59-63): `profit >= min && profit <= max`. -/
def profitFilterFn (profit mn mx : ℚ) : Bool :=
  decide (mn ≤ profit) && decide (profit ≤ mx)

/-- Proof-side characterization of the running best of the reducer: keep
the current best outcome and replace it only on strictly greater odds. -/
def mergeBest : Option Outcome → List Outcome → Option Outcome
  | cur, [] => cur
  | none, o :: rest => mergeBest (some o) rest
  | some b, o :: rest => mergeBest (if b.odds < o.odds then some o else some b) rest

/-- The `SurebetEvent` shape of the bet-detail page (`part_007`). -/
structure SurebetEvent where
  id : Nat
  event_id : String
  event : String
  sport : String
  outcomes : List Outcome
  profit_percentage : ℚ
  total_inverse_odds : ℚ
deriving Repr, DecidableEq

/-- The `PlainEvent` shape of the bet-detail page (`part_007`). -/
structure PlainEvent where
  id : Nat
  event_id : String
  event : String
  sport : String
  outcomes : List Outcome
deriving Repr, DecidableEq

/-- The observable result of one HTTP `fetch` call inside the try block:
an ok response carrying a parsed JSON body, a non-ok response, or a
thrown exception (network failure, JSON parse error, ...). -/
inductive FetchOutcome (α : Type) where
  | ok (body : α)
  | notOk
  | threw
deriving Repr, DecidableEq

/-- `fetchSurebet` of the bet-detail page: returns the parsed item
(`item || null` maps a null body to `none`), `null` on a non-ok
response, and `null` when anything threw (the whole body is wrapped in
try/catch returning null). -/
def fetchSurebet : FetchOutcome (Option SurebetEvent) → Option SurebetEvent
  | .ok item => item
  | .notOk => none
  | .threw => none

/-- `fetchEvent` of the bet-detail page: same shape as `fetchSurebet`
against the plain-events endpoint. -/
def fetchEvent : FetchOutcome (Option PlainEvent) → Option PlainEvent
  | .ok item => item
  | .notOk => none
  | .threw => none

/-- The `fetchSurebet` variant of `part_008`: fetches the surebet list and
returns the first item with the requested `event_id`, or `null`; non-ok
responses and thrown exceptions also give `null`. -/
def fetchSurebetByList (r : FetchOutcome (List SurebetEvent)) (eventId : String) :
    Option SurebetEvent :=
  match r with
  | .ok items => items.find? fun s => s.event_id == eventId
  | .notOk => none
  | .threw => none

/-- What `BetDetailPage.fetchData` leaves on screen after both fetch
attempts settle. -/
inductive PageResult where
  | showSurebet (s : SurebetEvent)
  | showPlain (p : PlainEvent)
  | eventNotFound
deriving Repr, DecidableEq

/-- `fetchData` of `BetDetailPage` (`part_007` lines 106-140): try the
surebet endpoint first, fall back to the plain-event endpoint, and report
not-found only when both fetches returned null. -/
def fetchData (sres : FetchOutcome (Option SurebetEvent))
    (pres : FetchOutcome (Option PlainEvent)) : PageResult :=
  match fetchSurebet sres with
  | some s => .showSurebet s
  | none =>
      match fetchEvent pres with
      | some p => .showPlain p
      | none => .eventNotFound

/-- Counterexample outcomes: a symmetric two-way market at odds 2 whose
total inverse odds is exactly 1 (break-even, not an arbitrage). -/
def cexTwoWay : List Outcome :=
  [⟨1, 1, "BookA", "Home", 2, ""⟩, ⟨2, 1, "BookB", "Away", 2, ""⟩]

/-- Counterexample outcomes with odds 2, 3 and 7, whose allocation shares
have denominator 41. -/
def cexOddDen : List Outcome :=
  [⟨1, 1, "BookA", "Home", 2, ""⟩, ⟨2, 1, "BookB", "Draw", 3, ""⟩,
   ⟨3, 1, "BookC", "Away", 7, ""⟩]

/-- Demo outcomes with a tied best price for the label Home. -/
def demoTied : List Outcome :=
  [⟨1, 1, "BookA", "Home", 3, ""⟩, ⟨2, 1, "BookB", "Home", 3, ""⟩,
   ⟨3, 1, "BookC", "Away", 2, ""⟩]

/-- Demo outcomes where one bookmaker lists the label Home twice with
different odds. -/
def demoDup : List Outcome :=
  [⟨1, 1, "BookA", "Home", 2, ""⟩, ⟨2, 1, "BookA", "Home", 3, ""⟩,
   ⟨3, 1, "BookB", "Away", 4, ""⟩]

/-- Demo outcomes containing an outcome whose name is empty. -/
def demoEmptyName : List Outcome :=
  [⟨1, 1, "BookA", "", 9, ""⟩, ⟨2, 1, "BookB", "Home", 2, ""⟩]

/-! ### Lemmas about the stake calculator -/

lemma sumInverse_foldl (outcomes : List Outcome) (a : ℚ) :
    outcomes.foldl (fun acc o => acc + 1 / o.odds) a
      = a + (outcomes.map fun o => 1 / o.odds).sum := by
  induction outcomes generalizing a with
  | nil => simp
  | cons x l ih => rw [List.foldl_cons, ih, List.map_cons, List.sum_cons]; ring

lemma sumInverse_eq_sum (outcomes : List Outcome) :
    sumInverse outcomes = (outcomes.map fun o => 1 / o.odds).sum := by
  rw [sumInverse, sumInverse_foldl, zero_add]

lemma calcForm_results_of (outcomes : List Outcome) (stake : ℚ)
    (hne : outcomes ≠ []) (hpos : 0 < sumInverse outcomes) :
    CalculateStakesForm outcomes stake
      = .results (stakeResults outcomes stake)
          (stake / sumInverse outcomes) (stake / sumInverse outcomes - stake) := by
  have hlen : outcomes.length ≠ 0 := by
    simpa [List.length_eq_zero] using hne
  simp [CalculateStakesForm, hlen, not_le.mpr hpos]

/-! ### Lemmas about the best-odds grouping -/

lemma recordGet_append (k : String) (l1 l2 : List (String × Outcome)) :
    recordGet k (l1 ++ l2)
      = match recordGet k l1 with
        | some b => some b
        | none => recordGet k l2 := by
  induction l1 with
  | nil => simp [recordGet]
  | cons p rest ih =>
      by_cases h : p.1 = k <;> simp [recordGet, h, ih]

lemma recordGet_map_replace_ne (k key : String) (curr : Outcome)
    (acc : List (String × Outcome)) (hne : k ≠ key) :
    recordGet k (acc.map fun p => if p.1 = key then (key, curr) else p)
      = recordGet k acc := by
  induction acc with
  | nil => simp [recordGet]
  | cons p rest ih =>
      by_cases h : p.1 = key
      · simp [recordGet, h, Ne.symm hne, ih, hne]
      · by_cases h2 : p.1 = k <;> simp [recordGet, h, h2, ih, hne]

lemma recordGet_map_replace_eq (key : String) (curr : Outcome)
    (acc : List (String × Outcome)) (prev : Outcome)
    (h : recordGet key acc = some prev) :
    recordGet key (acc.map fun p => if p.1 = key then (key, curr) else p)
      = some curr := by
  induction acc with
  | nil => simp [recordGet] at h
  | cons p rest ih =>
      by_cases hp : p.1 = key
      · simp [recordGet, hp]
      · simp [recordGet, hp] at h
        simp [recordGet, hp, ih h]

lemma recordGet_insertBest (acc : List (String × Outcome)) (curr : Outcome) (k : String) :
    recordGet k (insertBest acc curr)
      = if curr.name = "" then recordGet k acc
        else if k = curr.name then
          match recordGet k acc with
          | none => some curr
          | some prev => if prev.odds < curr.odds then some curr else some prev
        else recordGet k acc := by
  unfold insertBest
  by_cases h0 : curr.name = ""
  · rw [if_pos h0, if_pos h0]
  · rw [if_neg h0, if_neg h0]
    by_cases hk : k = curr.name
    · rw [if_pos hk]
      cases hrec : recordGet k acc with
      | none =>
          have hrec2 : recordGet curr.name acc = none := by rw [← hk]; exact hrec
          simp only [hrec2]
          rw [recordGet_append, hrec]
          simp [recordGet, hk.symm]
      | some prev =>
          have hrec2 : recordGet curr.name acc = some prev := by rw [← hk]; exact hrec
          simp only [hrec2]
          by_cases hlt : prev.odds < curr.odds
          · rw [if_pos hlt, if_pos hlt, hk]
            exact recordGet_map_replace_eq curr.name curr acc prev hrec2
          · rw [if_neg hlt, if_neg hlt]
            exact hrec
    · rw [if_neg hk]
      cases hrec : recordGet curr.name acc with
      | none =>
          simp only [hrec]
          rw [recordGet_append]
          cases h2 : recordGet k acc with
          | none =>
              have hnk : ¬ (curr.name = k) := fun h => hk h.symm
              simp [recordGet, hnk]
          | some b => rfl
      | some prev =>
          simp only [hrec]
          by_cases hlt : prev.odds < curr.odds
          · rw [if_pos hlt]
            exact recordGet_map_replace_ne k curr.name curr acc hk
          · rw [if_neg hlt]

lemma mergeBest_cons (cur : Option Outcome) (o : Outcome) (rest : List Outcome) :
    mergeBest cur (o :: rest)
      = mergeBest (match cur with
          | none => some o
          | some b => if b.odds < o.odds then some o else some b) rest := by
  cases cur <;> rfl

lemma mergeBest_cons_none (o : Outcome) (rest : List Outcome) :
    mergeBest none (o :: rest) = mergeBest (some o) rest := rfl

lemma mergeBest_cons_some (b o : Outcome) (rest : List Outcome) :
    mergeBest (some b) (o :: rest)
      = mergeBest (if b.odds < o.odds then some o else some b) rest := rfl

lemma mergeBest_nil (cur : Option Outcome) : mergeBest cur [] = cur := by
  cases cur <;> rfl

lemma recordGet_foldl (l : List Outcome) (acc : List (String × Outcome)) (k : String)
    (hk : k ≠ "") :
    recordGet k (l.foldl insertBest acc)
      = mergeBest (recordGet k acc) (l.filter fun o => o.name = k) := by
  induction l generalizing acc with
  | nil =>
      rw [List.foldl_nil, List.filter_nil]
      cases h : recordGet k acc <;> rfl
  | cons x l ih =>
      rw [List.foldl_cons, ih, recordGet_insertBest]
      by_cases h0 : x.name = ""
      · have hxk : ¬ (x.name = k) := by rw [h0]; exact Ne.symm hk
        rw [if_pos h0, List.filter_cons_of_neg (by simpa using hxk)]
      · rw [if_neg h0]
        by_cases hk2 : k = x.name
        · rw [if_pos hk2, List.filter_cons_of_pos (by simpa using hk2.symm), mergeBest_cons]
        · have hxk : ¬ (x.name = k) := fun h => hk2 h.symm
          rw [if_neg hk2, List.filter_cons_of_neg (by simpa using hxk)]

lemma recordGet_best (l : List Outcome) (k : String) (hk : k ≠ "") :
    recordGet k (bestByOutcomeName l)
      = mergeBest none (l.filter fun o => o.name = k) := by
  unfold bestByOutcomeName
  have h := recordGet_foldl l [] k hk
  simpa [recordGet] using h

lemma mergeBest_isSome : ∀ (l : List Outcome) (c : Outcome),
    ∃ b, mergeBest (some c) l = some b := by
  intro l
  induction l with
  | nil => intro c; exact ⟨c, rfl⟩
  | cons x l ih =>
      intro c
      rw [mergeBest_cons_some]
      by_cases hlt : c.odds < x.odds
      · rw [if_pos hlt]; exact ih x
      · rw [if_neg hlt]; exact ih c

lemma mergeBest_some_spec : ∀ (l : List Outcome) (c b : Outcome),
    mergeBest (some c) l = some b →
    (b = c ∧ ∀ o ∈ l, o.odds ≤ c.odds) ∨
    (∃ l1 l2, l = l1 ++ b :: l2 ∧ c.odds < b.odds ∧
      (∀ o ∈ l1, o.odds < b.odds) ∧ (∀ o ∈ l2, o.odds ≤ b.odds)) := by
  intro l
  induction l with
  | nil =>
      intro c b h
      left
      exact ⟨(Option.some.inj h).symm, by simp⟩
  | cons x l ih =>
      intro c b h
      rw [mergeBest_cons_some] at h
      by_cases hlt : c.odds < x.odds
      · rw [if_pos hlt] at h
        rcases ih x b h with ⟨heq, hall⟩ | ⟨l1, l2, hdec, hxb, h1, h2⟩
        · subst heq
          right
          exact ⟨[], l, rfl, hlt, by simp, hall⟩
        · subst hdec
          right
          refine ⟨x :: l1, l2, rfl, lt_trans hlt hxb, ?_, h2⟩
          intro o ho
          rcases List.mem_cons.mp ho with rfl | ho2
          · exact hxb
          · exact h1 o ho2
      · rw [if_neg hlt] at h
        rcases ih c b h with ⟨heq, hall⟩ | ⟨l1, l2, hdec, hcb, h1, h2⟩
        · subst heq
          left
          refine ⟨rfl, ?_⟩
          intro o ho
          rcases List.mem_cons.mp ho with rfl | ho2
          · exact le_of_not_lt hlt
          · exact hall o ho2
        · subst hdec
          right
          refine ⟨x :: l1, l2, rfl, hcb, ?_, h2⟩
          intro o ho
          rcases List.mem_cons.mp ho with rfl | ho2
          · exact lt_of_le_of_lt (le_of_not_lt hlt) hcb
          · exact h1 o ho2

lemma mergeBest_none_spec (l : List Outcome) (b : Outcome)
    (h : mergeBest none l = some b) :
    ∃ l1 l2, l = l1 ++ b :: l2 ∧ (∀ o ∈ l1, o.odds < b.odds) ∧
      (∀ o ∈ l2, o.odds ≤ b.odds) := by
  cases l with
  | nil => simp [mergeBest] at h
  | cons x l =>
      rw [mergeBest_cons_none] at h
      rcases mergeBest_some_spec l x b h with ⟨heq, hall⟩ | ⟨l1, l2, hdec, hxb, h1, h2⟩
      · subst heq
        exact ⟨[], l, rfl, by simp, hall⟩
      · subst hdec
        refine ⟨x :: l1, l2, rfl, ?_, h2⟩
        intro o ho
        rcases List.mem_cons.mp ho with rfl | ho2
        · exact hxb
        · exact h1 o ho2

lemma filter_eq_append_cons (p : Outcome → Bool) (b : Outcome) :
    ∀ (l x1 x2 : List Outcome), l.filter p = x1 ++ b :: x2 →
      ∃ l1 l2, l = l1 ++ b :: l2 ∧ l1.filter p = x1 ∧ l2.filter p = x2 := by
  intro l
  induction l with
  | nil => intro x1 x2 h; simp at h
  | cons a l ih =>
      intro x1 x2 h
      by_cases hp : p a = true
      · rw [List.filter_cons_of_pos hp] at h
        cases x1 with
        | nil =>
            simp only [List.nil_append] at h
            obtain ⟨rfl, hx2⟩ := List.cons.inj h
            exact ⟨[], l, rfl, rfl, hx2⟩
        | cons c x1 =>
            simp only [List.cons_append] at h
            obtain ⟨rfl, hrest⟩ := List.cons.inj h
            obtain ⟨l1, l2, rfl, hf1, hf2⟩ := ih x1 x2 hrest
            exact ⟨a :: l1, l2, rfl, by rw [List.filter_cons_of_pos hp, hf1], hf2⟩
      · rw [List.filter_cons_of_neg (by simpa using hp)] at h
        obtain ⟨l1, l2, rfl, hf1, hf2⟩ := ih x1 x2 h
        exact ⟨a :: l1, l2, rfl,
          by rw [List.filter_cons_of_neg (by simpa using hp), hf1], hf2⟩

lemma mem_insertBest (acc : List (String × Outcome)) (curr : Outcome) (q : String × Outcome)
    (h : q ∈ insertBest acc curr) :
    q ∈ acc ∨ (q = (curr.name, curr) ∧ curr.name ≠ "") := by
  unfold insertBest at h
  by_cases h0 : curr.name = ""
  · rw [if_pos h0] at h
    exact Or.inl h
  · rw [if_neg h0] at h
    cases hrec : recordGet curr.name acc with
    | none =>
        rw [hrec] at h
        rcases List.mem_append.mp h with h1 | h1
        · exact Or.inl h1
        · simp only [List.mem_singleton] at h1
          exact Or.inr ⟨h1, h0⟩
    | some prev =>
        rw [hrec] at h
        dsimp only at h
        by_cases hlt : prev.odds < curr.odds
        · rw [if_pos hlt] at h
          rcases List.mem_map.mp h with ⟨q0, hq0, heq⟩
          by_cases hq : q0.1 = curr.name
          · rw [if_pos hq] at heq
            exact Or.inr ⟨heq.symm, h0⟩
          · rw [if_neg hq] at heq
            exact Or.inl (heq ▸ hq0)
        · rw [if_neg hlt] at h
          exact Or.inl h

lemma mem_foldl_insertBest : ∀ (l : List Outcome) (acc : List (String × Outcome))
    (q : String × Outcome), q ∈ l.foldl insertBest acc →
      q ∈ acc ∨ (q.2 ∈ l ∧ q.2.name = q.1 ∧ q.1 ≠ "") := by
  intro l
  induction l with
  | nil =>
      intro acc q h
      rw [List.foldl_nil] at h
      exact Or.inl h
  | cons x l ih =>
      intro acc q h
      rw [List.foldl_cons] at h
      rcases ih (insertBest acc x) q h with h1 | h1
      · rcases mem_insertBest acc x q h1 with h2 | ⟨heq, hne⟩
        · exact Or.inl h2
        · subst heq
          exact Or.inr ⟨List.mem_cons_self x l, rfl, hne⟩
      · exact Or.inr ⟨List.mem_cons_of_mem x h1.1, h1.2.1, h1.2.2⟩

lemma recordGet_eq_none_iff (k : String) : ∀ (acc : List (String × Outcome)),
    recordGet k acc = none ↔ k ∉ acc.map Prod.fst := by
  intro acc
  induction acc with
  | nil => simp [recordGet]
  | cons p rest ih =>
      by_cases hp : p.1 = k
      · simp [recordGet, hp]
      · simp [recordGet, hp, ih, Ne.symm hp]

lemma keys_insertBest (acc : List (String × Outcome)) (curr : Outcome) :
    (insertBest acc curr).map Prod.fst = acc.map Prod.fst ∨
      ((insertBest acc curr).map Prod.fst = acc.map Prod.fst ++ [curr.name] ∧
        recordGet curr.name acc = none) := by
  unfold insertBest
  by_cases h0 : curr.name = ""
  · rw [if_pos h0]
    exact Or.inl rfl
  · rw [if_neg h0]
    cases hrec : recordGet curr.name acc with
    | none =>
        right
        exact ⟨by simp, rfl⟩
    | some prev =>
        dsimp only
        by_cases hlt : prev.odds < curr.odds
        · rw [if_pos hlt]
          left
          rw [List.map_map]
          refine List.map_congr_left ?_
          intro p _
          by_cases hp : p.1 = curr.name
          · simp [Function.comp, hp]
          · simp [Function.comp, hp]
        · rw [if_neg hlt]
          exact Or.inl rfl

lemma nodup_keys_foldl : ∀ (l : List Outcome) (acc : List (String × Outcome)),
    (acc.map Prod.fst).Nodup → ((l.foldl insertBest acc).map Prod.fst).Nodup := by
  intro l
  induction l with
  | nil =>
      intro acc h
      rw [List.foldl_nil]
      exact h
  | cons x l ih =>
      intro acc h
      rw [List.foldl_cons]
      apply ih
      rcases keys_insertBest acc x with heq | ⟨heq, hrec⟩
      · rw [heq]; exact h
      · rw [heq]
        have hnotin : x.name ∉ acc.map Prod.fst := (recordGet_eq_none_iff _ acc).mp hrec
        simp [List.nodup_append, h, hnotin]

lemma recordGet_mem (k : String) (b : Outcome) : ∀ (acc : List (String × Outcome)),
    recordGet k acc = some b → (k, b) ∈ acc := by
  intro acc
  induction acc with
  | nil => intro h; simp [recordGet] at h
  | cons p rest ih =>
      obtain ⟨a, c⟩ := p
      intro h
      by_cases hp : a = k
      · subst hp
        simp only [recordGet, if_pos rfl] at h
        obtain rfl := Option.some.inj h
        exact List.mem_cons_self _ _
      · simp only [recordGet, if_neg hp] at h
        exact List.mem_cons_of_mem _ (ih h)

lemma best_lookup_exists (l : List Outcome) (k : String) (hk : k ≠ "")
    (h : ∃ o ∈ l, o.name = k) :
    ∃ b, recordGet k (bestByOutcomeName l) = some b := by
  obtain ⟨o, ho, honame⟩ := h
  have hbridge := recordGet_best l k hk
  have hmem : o ∈ l.filter fun o => o.name = k :=
    List.mem_filter.mpr ⟨ho, by simpa using honame⟩
  cases hfil : l.filter fun o => o.name = k with
  | nil => rw [hfil] at hmem; simp at hmem
  | cons x xs =>
      rw [hfil, mergeBest_cons_none] at hbridge
      obtain ⟨b, hb⟩ := mergeBest_isSome xs x
      exact ⟨b, by rw [hbridge, hb]⟩

lemma best_lookup_max (l : List Outcome) (k : String) (hk : k ≠ "") (b : Outcome)
    (hb : recordGet k (bestByOutcomeName l) = some b) :
    b ∈ l ∧ b.name = k ∧ (∀ o ∈ l, o.name = k → o.odds ≤ b.odds) ∧
      ∃ l1 l2, l = l1 ++ b :: l2 ∧ ∀ o ∈ l1, o.name = k → o.odds < b.odds := by
  rw [recordGet_best l k hk] at hb
  obtain ⟨x1, x2, hx, h1, h2⟩ := mergeBest_none_spec _ b hb
  obtain ⟨l1, l2, hdec, hf1, hf2⟩ := filter_eq_append_cons _ b l x1 x2 hx
  have hbf : b ∈ l.filter fun o => o.name = k := by
    rw [hx]
    exact List.mem_append.mpr (Or.inr (List.mem_cons_self _ _))
  have hbl : b ∈ l ∧ b.name = k := by
    have := List.mem_filter.mp hbf
    exact ⟨this.1, by simpa using this.2⟩
  refine ⟨hbl.1, hbl.2, ?_, l1, l2, hdec, ?_⟩
  · intro o ho honame
    have homem : o ∈ l.filter fun o => o.name = k :=
      List.mem_filter.mpr ⟨ho, by simpa using honame⟩
    rw [hx] at homem
    rcases List.mem_append.mp homem with hin1 | hin2
    · exact le_of_lt (h1 o hin1)
    · rcases List.mem_cons.mp hin2 with rfl | hin2
      · exact le_refl _
      · exact h2 o hin2
  · intro o ho honame
    have : o ∈ x1 := by
      rw [← hf1]
      exact List.mem_filter.mpr ⟨ho, by simpa using honame⟩
    exact h1 o this

lemma recordGet_of_mem_nodup : ∀ (acc : List (String × Outcome)),
    (acc.map Prod.fst).Nodup → ∀ p ∈ acc, recordGet p.1 acc = some p.2 := by
  intro acc
  induction acc with
  | nil => intro _ p hp; simp at hp
  | cons q rest ih =>
      intro hnd p hp
      rw [List.map_cons, List.nodup_cons] at hnd
      rcases List.mem_cons.mp hp with rfl | hp2
      · simp [recordGet]
      · have hne : q.1 ≠ p.1 := by
          intro hcontra
          exact hnd.1 (hcontra ▸ List.mem_map_of_mem Prod.fst hp2)
        simp only [recordGet, if_neg hne]
        exact ih hnd.2 p hp2

/-! ### Claim theorems -/

/-- C1 counterexample: with total stake `0 ≤ 0` and total inverse odds
`1 ≥ 1` — both conditions under which the claim demands an
`InvalidStakeError` and no allocations — `CalculateStakesForm` still
renders a non-empty allocation list, with no error of any kind. -/
theorem calc_no_invalid_stake_guard_cex :
    (0 : ℚ) ≤ 0 ∧ 1 ≤ sumInverse cexTwoWay ∧
      CalculateStakesForm cexTwoWay 0
        = .results
            [{ outcome := ⟨1, 1, "BookA", "Home", 2, ""⟩, stake := 0, ret := 0 },
             { outcome := ⟨2, 1, "BookB", "Away", 2, ""⟩, stake := 0, ret := 0 }]
            0 0 := by
  refine ⟨le_refl 0, by norm_num [sumInverse, cexTwoWay], ?_⟩
  norm_num [CalculateStakesForm, stakeResults, sumInverse, cexTwoWay]

/-- C1 (amended): the stake form rejects exactly the empty outcome list
and a non-positive sum of inverse odds; it never checks the total stake
sign nor whether total inverse odds is at least 1, so allocations are
produced for every stake whenever the outcome list is non-empty and the
inverse odds sum is positive. -/
theorem calc_rejects_iff (outcomes : List Outcome) (stake : ℚ) :
    (∃ rs g p, CalculateStakesForm outcomes stake = .results rs g p)
      ↔ outcomes ≠ [] ∧ 0 < sumInverse outcomes := by
  constructor
  · rintro ⟨rs, g, p, h⟩
    by_cases hne : outcomes = []
    · simp [CalculateStakesForm, hne] at h
    · refine ⟨hne, ?_⟩
      by_contra hle
      have hle2 : sumInverse outcomes ≤ 0 := le_of_not_lt hle
      have hlen : outcomes.length ≠ 0 := by
        simpa [List.length_eq_zero] using hne
      simp [CalculateStakesForm, hlen, hle2] at h
  · rintro ⟨hne, hpos⟩
    exact ⟨_, _, _, calcForm_results_of outcomes stake hne hpos⟩

/-- Witness instantiating the amended C1 theorem at concrete input. -/
theorem calc_rejects_iff_witness :
    (∃ rs g p, CalculateStakesForm cexTwoWay 100 = .results rs g p)
      ↔ cexTwoWay ≠ [] ∧ 0 < sumInverse cexTwoWay :=
  calc_rejects_iff cexTwoWay 100

/-- C2: for every non-empty label, the best-odds grouping has an entry
iff some outcome carries the label; the chosen outcome carries the label,
its odds are maximal among all outcomes with that label, and on equal
maximal odds the first occurrence in input order is kept (every earlier
outcome with that label has strictly smaller odds). -/
theorem best_by_label_spec (l : List Outcome) (k : String) (hk : k ≠ "") :
    ((∃ o ∈ l, o.name = k) → ∃ b, recordGet k (bestByOutcomeName l) = some b) ∧
      ∀ b, recordGet k (bestByOutcomeName l) = some b →
        b ∈ l ∧ b.name = k ∧
          (∀ o ∈ l, o.name = k → o.odds ≤ b.odds) ∧
          ∃ l1 l2, l = l1 ++ b :: l2 ∧ ∀ o ∈ l1, o.name = k → o.odds < b.odds :=
  ⟨best_lookup_exists l k hk, fun b hb => best_lookup_max l k hk b hb⟩

/-- Witness instantiating C2 on a list with a tied best price. -/
theorem best_by_label_spec_witness :
    ((∃ o ∈ demoTied, o.name = "Home") →
        ∃ b, recordGet "Home" (bestByOutcomeName demoTied) = some b) ∧
      ∀ b, recordGet "Home" (bestByOutcomeName demoTied) = some b →
        b ∈ demoTied ∧ b.name = "Home" ∧
          (∀ o ∈ demoTied, o.name = "Home" → o.odds ≤ b.odds) ∧
          ∃ l1 l2, demoTied = l1 ++ b :: l2 ∧
            ∀ o ∈ l1, o.name = "Home" → o.odds < b.odds :=
  best_by_label_spec demoTied "Home" (by decide)

/-- C3: whenever the outcome list is non-empty with positive inverse-odds
sum (and nonzero odds, so that rational division models the source), the
form renders allocations whose stakes sum exactly to the requested total
and whose expected returns all equal the guaranteed return
`stake / total_inverse_odds`. -/
theorem calc_sum_and_equal_returns (outcomes : List Outcome) (stake : ℚ)
    (hne : outcomes ≠ []) (hpos : 0 < sumInverse outcomes)
    (hodds : ∀ o ∈ outcomes, o.odds ≠ 0) :
    ∃ rs, CalculateStakesForm outcomes stake
        = .results rs (stake / sumInverse outcomes)
            (stake / sumInverse outcomes - stake) ∧
      (rs.map Alloc.stake).sum = stake ∧
      ∀ a ∈ rs, a.ret = stake / sumInverse outcomes := by
  have hS : sumInverse outcomes ≠ 0 := ne_of_gt hpos
  refine ⟨stakeResults outcomes stake,
    calcForm_results_of outcomes stake hne hpos, ?_, ?_⟩
  · have h1 : ((stakeResults outcomes stake).map Alloc.stake)
        = outcomes.map fun o => stake / sumInverse outcomes * (1 / o.odds) := by
      simp only [stakeResults, List.map_map]
      refine List.map_congr_left ?_
      intro o _
      simp only [Function.comp]
      ring
    rw [h1, List.sum_map_mul_left, ← sumInverse_eq_sum]
    field_simp
  · intro a ha
    simp only [stakeResults, List.mem_map] at ha
    obtain ⟨o, ho, rfl⟩ := ha
    have hodd : o.odds ≠ 0 := hodds o ho
    field_simp
    ring

/-- Witness instantiating C3 on the odds 2/3/7 market with stake 100. -/
theorem calc_sum_and_equal_returns_witness :
    ∃ rs, CalculateStakesForm cexOddDen 100
        = .results rs (100 / sumInverse cexOddDen)
            (100 / sumInverse cexOddDen - 100) ∧
      (rs.map Alloc.stake).sum = 100 ∧
      ∀ a ∈ rs, a.ret = 100 / sumInverse cexOddDen :=
  calc_sum_and_equal_returns cexOddDen 100 (by simp [cexOddDen])
    (by norm_num [sumInverse, cexOddDen]) (by norm_num [cexOddDen])

/-- C4: every allocation row follows the documented formulas: the i-th
stake is `totalStake × (1/odds_i) / total_inverse_odds`, its expected
return is `stake_i × odds_i`, and the divisor is the sum of the
reciprocal odds over the input outcomes. -/
theorem stake_formula (outcomes : List Outcome) (stake : ℚ) (i : Nat)
    (h : i < outcomes.length) :
    ∃ a, (stakeResults outcomes stake)[i]? = some a ∧
      a.stake = stake * (1 / (outcomes.get ⟨i, h⟩).odds) / sumInverse outcomes ∧
      a.ret = a.stake * (outcomes.get ⟨i, h⟩).odds ∧
      sumInverse outcomes = (outcomes.map fun o => 1 / o.odds).sum := by
  have hget : (stakeResults outcomes stake)[i]?
      = some { outcome := outcomes.get ⟨i, h⟩,
               stake := stake * (1 / (outcomes.get ⟨i, h⟩).odds / sumInverse outcomes),
               ret := stake * (1 / (outcomes.get ⟨i, h⟩).odds / sumInverse outcomes)
                        * (outcomes.get ⟨i, h⟩).odds } := by
    simp [stakeResults, List.getElem?_eq_getElem h, List.get_eq_getElem]
  exact ⟨_, hget, by rw [mul_div_assoc], rfl, sumInverse_eq_sum outcomes⟩

/-- Witness instantiating C4 at a concrete input. -/
theorem stake_formula_witness :
    ∃ a, (stakeResults cexTwoWay 100)[0]? = some a ∧
      a.stake = 100 * (1 / (cexTwoWay.get ⟨0, by norm_num [cexTwoWay]⟩).odds)
          / sumInverse cexTwoWay ∧
      a.ret = a.stake * (cexTwoWay.get ⟨0, by norm_num [cexTwoWay]⟩).odds ∧
      sumInverse cexTwoWay = (cexTwoWay.map fun o => 1 / o.odds).sum :=
  stake_formula cexTwoWay 100 0 (by norm_num [cexTwoWay])

/-- C5: the total inverse odds fed into the stake calculator is the sum,
over the grouping entries, of the reciprocal best odds: the entry keys
are pairwise distinct non-empty labels, each entry is a maximal-odds
outcome from the input carrying its label, and every non-empty label
occurring in the input has exactly one entry. -/
theorem total_inverse_from_best (l : List Outcome) :
    sumInverse (bestOutcomes l)
        = ((bestByOutcomeName l).map fun p => 1 / p.2.odds).sum ∧
      ((bestByOutcomeName l).map Prod.fst).Nodup ∧
      (∀ p ∈ bestByOutcomeName l,
        p.1 ≠ "" ∧ p.2.name = p.1 ∧ p.2 ∈ l ∧
          ∀ o ∈ l, o.name = p.1 → o.odds ≤ p.2.odds) ∧
      ∀ k, k ≠ "" → (∃ o ∈ l, o.name = k) →
        ∃ b, recordGet k (bestByOutcomeName l) = some b := by
  have hnd : ((bestByOutcomeName l).map Prod.fst).Nodup :=
    nodup_keys_foldl l [] (by simp)
  refine ⟨?_, hnd, ?_, fun k hk h => best_lookup_exists l k hk h⟩
  · rw [sumInverse_eq_sum, bestOutcomes, List.map_map]
    rfl
  · intro p hp
    rcases mem_foldl_insertBest l [] p hp with hmem | ⟨hmem, hname, hne⟩
    · simp at hmem
    · have hget : recordGet p.1 (bestByOutcomeName l) = some p.2 :=
        recordGet_of_mem_nodup _ hnd p hp
      have hmax := best_lookup_max l p.1 hne p.2 hget
      exact ⟨hne, hname, hmem, hmax.2.2.1⟩

/-- Witness instantiating C5 on a concrete outcome list. -/
theorem total_inverse_from_best_witness :
    sumInverse (bestOutcomes demoDup)
        = ((bestByOutcomeName demoDup).map fun p => 1 / p.2.odds).sum ∧
      ((bestByOutcomeName demoDup).map Prod.fst).Nodup ∧
      (∀ p ∈ bestByOutcomeName demoDup,
        p.1 ≠ "" ∧ p.2.name = p.1 ∧ p.2 ∈ demoDup ∧
          ∀ o ∈ demoDup, o.name = p.1 → o.odds ≤ p.2.odds) ∧
      ∀ k, k ≠ "" → (∃ o ∈ demoDup, o.name = k) →
        ∃ b, recordGet k (bestByOutcomeName demoDup) = some b :=
  total_inverse_from_best demoDup

/-- C6: when the outcomes carrying a label are exactly two entries from
the same bookmaker with different positive odds, the grouping selects a
single outcome whose odds equal the maximum of the two — never their sum
and never their average. -/
theorem dup_label_contributes_max_once (l : List Outcome) (k : String) (o1 o2 : Outcome)
    (hk : k ≠ "") (hfilt : (l.filter fun o => o.name = k) = [o1, o2])
    (hbm : o1.bookmaker = o2.bookmaker) (hneq : o1.odds ≠ o2.odds)
    (hpos1 : 0 < o1.odds) (hpos2 : 0 < o2.odds) :
    ∃ b, recordGet k (bestByOutcomeName l) = some b ∧
      b.odds = max o1.odds o2.odds ∧
      b.odds ≠ o1.odds + o2.odds ∧
      b.odds ≠ (o1.odds + o2.odds) / 2 := by
  have hbridge := recordGet_best l k hk
  rw [hfilt, mergeBest_cons_none, mergeBest_cons_some] at hbridge
  by_cases hlt : o1.odds < o2.odds
  · rw [if_pos hlt, mergeBest_nil] at hbridge
    refine ⟨o2, hbridge, ?_, ?_, ?_⟩
    · rw [max_eq_right (le_of_lt hlt)]
    · intro hc; linarith
    · intro hc; linarith
  · rw [if_neg hlt, mergeBest_nil] at hbridge
    have hlt2 : o2.odds < o1.odds :=
      lt_of_le_of_ne (le_of_not_lt hlt) (Ne.symm hneq)
    refine ⟨o1, hbridge, ?_, ?_, ?_⟩
    · rw [max_eq_left (le_of_not_lt hlt)]
    · intro hc; linarith
    · intro hc; linarith

/-- Witness instantiating C6 on a duplicate-bookmaker input. -/
theorem dup_label_contributes_max_once_witness :
    ∃ b, recordGet "Home" (bestByOutcomeName demoDup) = some b ∧
      b.odds = max (2 : ℚ) 3 ∧
      b.odds ≠ (2 : ℚ) + 3 ∧
      b.odds ≠ ((2 : ℚ) + 3) / 2 :=
  dup_label_contributes_max_once demoDup "Home"
    ⟨1, 1, "BookA", "Home", 2, ""⟩ ⟨2, 1, "BookA", "Home", 3, ""⟩
    (by decide) (by simp [demoDup, List.filter]) rfl
    (by norm_num) (by norm_num) (by norm_num)

/-- C7 counterexample: the first stake produced for a 100-unit total on
odds 2/3/7 is the exact quotient `2100/41`, which is not a 2-decimal
monetary value (its value times 100 is not an integer); no rounding —
half-to-even or otherwise — is applied to the produced stakes. -/
theorem stakes_not_rounded_cex :
    ((stakeResults cexOddDen 100).map Alloc.stake).headI = 2100 / 41 ∧
      ¬ ∃ n : ℤ, ((stakeResults cexOddDen 100).map Alloc.stake).headI * 100 = n := by
  constructor
  · norm_num [stakeResults, sumInverse, cexOddDen]
  · rintro ⟨n, hn⟩
    norm_num [stakeResults, sumInverse, cexOddDen] at hn
    have h2 : (210000 : ℚ) = n * 41 := by
      field_simp at hn
      linarith
    have h3 : (210000 : ℤ) = n * 41 := by exact_mod_cast h2
    omega

/-- C7 (amended): the allocation rows of a rendered stake plan carry the
exact, unrounded stakes `totalStake × (1/odds) / sumInverse` (rounding to
two decimals happens only in display formatting), and the rendered view
carries no rounding-deviation value. -/
theorem stakes_exact_unrounded (outcomes : List Outcome) (stake : ℚ)
    (rs : List Alloc) (g p : ℚ)
    (h : CalculateStakesForm outcomes stake = .results rs g p) :
    rs = stakeResults outcomes stake ∧
      ∀ a ∈ rs, a.stake = stake * (1 / a.outcome.odds) / sumInverse outcomes := by
  have hrs : rs = stakeResults outcomes stake := by
    by_cases hne : outcomes.length = 0
    · simp [CalculateStakesForm, hne] at h
    · by_cases hle : sumInverse outcomes ≤ 0
      · simp [CalculateStakesForm, hne, hle] at h
      · simp [CalculateStakesForm, hne, hle] at h
        exact h.1.symm
  refine ⟨hrs, ?_⟩
  intro a ha
  rw [hrs] at ha
  simp only [stakeResults, List.mem_map] at ha
  obtain ⟨o, _, rfl⟩ := ha
  simp [mul_div_assoc]

/-- Witness instantiating the amended C7 theorem at a concrete input. -/
theorem stakes_exact_unrounded_witness :
    stakeResults cexTwoWay 100 = stakeResults cexTwoWay 100 ∧
      ∀ a ∈ stakeResults cexTwoWay 100,
        a.stake = 100 * (1 / a.outcome.odds) / sumInverse cexTwoWay :=
  stakes_exact_unrounded cexTwoWay 100 (stakeResults cexTwoWay 100)
    (100 / sumInverse cexTwoWay) (100 / sumInverse cexTwoWay - 100)
    (calcForm_results_of cexTwoWay 100 (by simp [cexTwoWay])
      (by norm_num [sumInverse, cexTwoWay]))

/-- C8: the profit filter boundary is inclusive — a row whose profit
equals the minimum threshold passes the filter (so with the default
threshold 0 a break-even opportunity is reported). -/
theorem profit_threshold_inclusive (profit mn mx : ℚ)
    (heq : profit = mn) (hmax : profit ≤ mx) :
    profitFilterFn profit mn mx = true := by
  subst heq
  simp [profitFilterFn, hmax]

/-- Witness for C8: a break-even row (profit exactly 0) passes the filter
with the default minimum threshold 0. -/
theorem profit_threshold_inclusive_witness :
    profitFilterFn 0 0 100 = true :=
  profit_threshold_inclusive 0 0 100 rfl (by norm_num)

/-- C9: outcomes with an empty name are invisible to the grouping:
removing one changes nothing, it never appears among the best outcomes
(so it contributes no deep link and no stake row), every grouped outcome
has a non-empty name, and the empty key is never present. -/
theorem empty_label_excluded (l l1 l2 : List Outcome) (o : Outcome)
    (hname : o.name = "") (hdecomp : l = l1 ++ o :: l2) :
    bestByOutcomeName l = bestByOutcomeName (l1 ++ l2) ∧
      o ∉ bestOutcomes l ∧
      (∀ b ∈ bestOutcomes l, b.name ≠ "") ∧
      recordGet "" (bestByOutcomeName l) = none := by
  have hskip : ∀ acc, insertBest acc o = acc := by
    intro acc
    unfold insertBest
    rw [if_pos hname]
  have hall : ∀ b ∈ bestOutcomes l, b.name ≠ "" := by
    intro b hb
    rcases List.mem_map.mp hb with ⟨p, hp, rfl⟩
    rcases mem_foldl_insertBest l [] p hp with hmem | ⟨_, hname2, hne⟩
    · simp at hmem
    · rw [hname2]; exact hne
  have hgroup : bestByOutcomeName l = bestByOutcomeName (l1 ++ l2) := by
    subst hdecomp
    unfold bestByOutcomeName
    rw [List.foldl_append, List.foldl_cons, hskip, ← List.foldl_append]
  refine ⟨hgroup, fun hmem => (hall o hmem) hname, hall, ?_⟩
  cases hr : recordGet "" (bestByOutcomeName l) with
  | none => rfl
  | some b =>
      have hmem := recordGet_mem "" b _ hr
      rcases mem_foldl_insertBest l [] _ hmem with h | ⟨_, _, hne⟩
      · simp at h
      · exact absurd rfl hne

/-- Witness instantiating C9 on a list whose first outcome has an empty
name. -/
theorem empty_label_excluded_witness :
    bestByOutcomeName demoEmptyName
        = bestByOutcomeName ([] ++ [⟨2, 1, "BookB", "Home", 2, ""⟩]) ∧
      (⟨1, 1, "BookA", "", 9, ""⟩ : Outcome) ∉ bestOutcomes demoEmptyName ∧
      (∀ b ∈ bestOutcomes demoEmptyName, b.name ≠ "") ∧
      recordGet "" (bestByOutcomeName demoEmptyName) = none :=
  empty_label_excluded demoEmptyName [] [⟨2, 1, "BookB", "Home", 2, ""⟩]
    ⟨1, 1, "BookA", "", 9, ""⟩ rfl rfl

/-- C10: the fetch helpers return null (never raise) on any non-ok
response or thrown exception — for the surebet endpoint, the plain-event
endpoint, and the list-based surebet lookup — and the detail page reports
not-found exactly when both the surebet and the plain-event fetch
returned null. -/
theorem fetch_never_raises (sres : FetchOutcome (Option SurebetEvent))
    (pres : FetchOutcome (Option PlainEvent))
    (r : FetchOutcome (List SurebetEvent)) (eid : String) :
    (sres = .notOk ∨ sres = .threw → fetchSurebet sres = none) ∧
      (pres = .notOk ∨ pres = .threw → fetchEvent pres = none) ∧
      (r = .notOk ∨ r = .threw → fetchSurebetByList r eid = none) ∧
      (fetchData sres pres = .eventNotFound
        ↔ fetchSurebet sres = none ∧ fetchEvent pres = none) := by
  refine ⟨?_, ?_, ?_, ?_⟩
  · rintro (rfl | rfl) <;> rfl
  · rintro (rfl | rfl) <;> rfl
  · rintro (rfl | rfl) <;> rfl
  · unfold fetchData
    cases hs : fetchSurebet sres with
    | some s => simp
    | none =>
        cases hp : fetchEvent pres with
        | some p => simp
        | none => simp

/-- Witness for C10: both fetches fail (non-ok and thrown), each returns
null, and the page reports not-found. -/
theorem fetch_never_raises_witness :
    fetchSurebet FetchOutcome.notOk = none ∧
      fetchEvent FetchOutcome.threw = none ∧
      fetchSurebetByList FetchOutcome.notOk "e1" = none ∧
      fetchData FetchOutcome.notOk FetchOutcome.threw = PageResult.eventNotFound :=
  have h := fetch_never_raises FetchOutcome.notOk FetchOutcome.threw FetchOutcome.notOk "e1"
  ⟨h.1 (Or.inl rfl), h.2.1 (Or.inr rfl), h.2.2.1 (Or.inl rfl),
    h.2.2.2.mpr ⟨h.1 (Or.inl rfl), h.2.1 (Or.inr rfl)⟩⟩

end SurebetTool
